import Mathlib

/-!
# Kana validation and bounded substitution (`wasm/main.go`)

A shallow embedding of the Go program `wasm/main.go`: the validator `validateKana`, the
length check `validateShortText`, the substitution `performReplacement` and the two host
wrappers, together with the parts of the Go standard library they call
(`[]rune(s)`, `unicode/utf8`, `unicode`, `regexp`, `strings`).

A Go `string` is a sequence of bytes; it is *not* required to be valid UTF-8, so the
embedding keeps bytes and decodes them the way the Go runtime does.
-/

namespace KanaReplace

/-! ## Go strings, bytes and runes -/

/-- A Go `byte` (`uint8`). -/
abbrev Byte := Fin 256

/-- A Go `string`: a finite sequence of bytes. -/
abbrev GoString := List Byte

/-- A Go `rune`. Decoding only produces values between `0` and `0x10FFFF`. -/
abbrev Rune := Nat

/-- The constant `utf8.RuneError`, U+FFFD. -/
def RuneError : Rune := 0xFFFD

/-- The table `first` of `unicode/utf8`, indexed by the first byte of a sequence:
`0xF0` (`as`) for ASCII, `0xF1` (`xx`) for an invalid first byte, and otherwise the
index of the accept range in the high nibble and the sequence length in the low one. -/
def first (b : Nat) : Nat :=
  if b < 0x80 then 0xF0
  else if b < 0xC2 then 0xF1
  else if b < 0xE0 then 0x02
  else if b = 0xE0 then 0x13
  else if b < 0xED then 0x03
  else if b = 0xED then 0x23
  else if b < 0xF0 then 0x03
  else if b = 0xF0 then 0x34
  else if b < 0xF4 then 0x04
  else if b = 0xF4 then 0x44
  else 0xF1

/-- The table `acceptRanges` of `unicode/utf8`: the bounds allowed for the second byte.
The array has 16 entries of which only the first five are set. -/
def acceptRanges (i : Nat) : Nat × Nat :=
  match i with
  | 0 => (0x80, 0xBF)
  | 1 => (0xA0, 0xBF)
  | 2 => (0x80, 0x9F)
  | 3 => (0x90, 0xBF)
  | 4 => (0x80, 0x8F)
  | _ => (0, 0)

/-- The byte `s[i]` as a number; it is only read after the length of `s` was checked. -/
def byteAt (s : GoString) (i : Nat) : Nat := (s.getD i 0).val

/-- The function `utf8.DecodeRuneInString`: the first rune of `s` and its width in bytes.
An empty string gives `(RuneError, 0)`, an invalid encoding gives `(RuneError, 1)`. -/
def DecodeRuneInString (s : GoString) : Rune × Nat :=
  let n := s.length
  if n < 1 then (RuneError, 0) else
  let s0 := byteAt s 0
  let x := first s0
  if x ≥ 0xF0 then
    -- `mask := rune(x) << 31 >> 31` is all ones exactly when `x` is odd (`xx`)
    (if x % 2 = 1 then RuneError else s0, 1)
  else
  let sz := x &&& 7
  let accept := acceptRanges (x >>> 4)
  if n < sz then (RuneError, 1) else
  let s1 := byteAt s 1
  if s1 < accept.1 ∨ accept.2 < s1 then (RuneError, 1) else
  if sz ≤ 2 then (((s0 &&& 0x1F) <<< 6) ||| (s1 &&& 0x3F), 2) else
  let s2 := byteAt s 2
  if s2 < 0x80 ∨ 0xBF < s2 then (RuneError, 1) else
  if sz ≤ 3 then (((s0 &&& 0x0F) <<< 12) ||| ((s1 &&& 0x3F) <<< 6) ||| (s2 &&& 0x3F), 3) else
  let s3 := byteAt s 3
  if s3 < 0x80 ∨ 0xBF < s3 then (RuneError, 1) else
  (((s0 &&& 0x07) <<< 18) ||| ((s1 &&& 0x3F) <<< 12) ||| ((s2 &&& 0x3F) <<< 6) ||| (s3 &&& 0x3F), 4)

/-- The loop of the conversion `[]rune(s)`, with an explicit bound on the number of
iterations: every iteration decodes one rune and drops its bytes. -/
def runesFuel : Nat → GoString → List Rune
  | 0, _ => []
  | _, [] => []
  | fuel + 1, b :: s =>
    (DecodeRuneInString (b :: s)).1 ::
      runesFuel fuel ((b :: s).drop (DecodeRuneInString (b :: s)).2)

/-- The conversion `[]rune(s)`. A non-empty string loses at least one byte per rune, so
`len(s)` iterations are enough (`runes_cons`). -/
def runes (s : GoString) : List Rune := runesFuel s.length s

/-- The function `utf8.RuneCountInString`. -/
def RuneCountInString (s : GoString) : Nat := (runes s).length

/-- The bytes `utf8.AppendRune` writes for a Unicode scalar value. -/
def encodeRune (r : Nat) : GoString :=
  if r ≤ 0x7F then [Fin.ofNat r]
  else if r ≤ 0x7FF then [Fin.ofNat (0xC0 ||| (r >>> 6)), Fin.ofNat (0x80 ||| (r &&& 0x3F))]
  else if r ≤ 0xFFFF then
    [Fin.ofNat (0xE0 ||| (r >>> 12)), Fin.ofNat (0x80 ||| ((r >>> 6) &&& 0x3F)),
      Fin.ofNat (0x80 ||| (r &&& 0x3F))]
  else
    [Fin.ofNat (0xF0 ||| (r >>> 18)), Fin.ofNat (0x80 ||| ((r >>> 12) &&& 0x3F)),
      Fin.ofNat (0x80 ||| ((r >>> 6) &&& 0x3F)), Fin.ofNat (0x80 ||| (r &&& 0x3F))]

/-- The bytes of a Go string literal: the UTF-8 encoding of its characters. -/
def str (s : String) : GoString := s.data.flatMap fun c => encodeRune c.toNat

/-! ## Unicode script tables -/

/-- A `unicode.Range16` or `unicode.Range32`: the code points `lo, lo + stride, ..., hi`. -/
structure Range where
  lo : Nat
  hi : Nat
  stride : Nat
deriving DecidableEq, Repr

/-- A `unicode.RangeTable`: its 16-bit ranges followed by its 32-bit ranges. -/
abbrev RangeTable := List Range

/-- Whether a rune is one of the code points of a range. -/
def Range.has (r : Range) (c : Rune) : Bool :=
  decide (r.lo ≤ c) && decide (c ≤ r.hi) && ((c - r.lo) % r.stride == 0)

/-- The function `unicode.Is`: whether the rune is in the table. -/
def Is (t : RangeTable) (c : Rune) : Bool := t.any fun r => r.has c

/-- The table `unicode.Hiragana` of the Go standard library (Unicode 15.0.0). -/
def Hiragana : RangeTable :=
  [⟨0x3041, 0x3096, 1⟩, ⟨0x309d, 0x309f, 1⟩,
   ⟨0x1b001, 0x1b11f, 1⟩, ⟨0x1b132, 0x1b150, 30⟩, ⟨0x1b151, 0x1b152, 1⟩, ⟨0x1f200, 0x1f200, 1⟩]

/-- The table `unicode.Katakana` of the Go standard library (Unicode 15.0.0). -/
def Katakana : RangeTable :=
  [⟨0x30a1, 0x30fa, 1⟩, ⟨0x30fd, 0x30ff, 1⟩, ⟨0x31f0, 0x31ff, 1⟩, ⟨0x32d0, 0x32fe, 1⟩,
   ⟨0x3300, 0x3357, 1⟩, ⟨0xff66, 0xff6f, 1⟩, ⟨0xff71, 0xff9d, 1⟩,
   ⟨0x1aff0, 0x1aff3, 1⟩, ⟨0x1aff5, 0x1affb, 1⟩, ⟨0x1affd, 0x1affe, 1⟩, ⟨0x1b000, 0x1b120, 288⟩,
   ⟨0x1b121, 0x1b122, 1⟩, ⟨0x1b155, 0x1b164, 15⟩, ⟨0x1b165, 0x1b167, 1⟩]

/-! ## Regular expressions -/

/-- The fragment of `regexp/syntax` the program's pattern is written in. -/
inductive Regexp where
  /-- `^` without the multi-line flag: the beginning of the text. -/
  | OpBeginText
  /-- `$` without the multi-line flag: the end of the text. -/
  | OpEndText
  /-- `[\p{A}\p{B}...]`: one rune that is in one of the tables. -/
  | OpCharClass (tables : List RangeTable)
  /-- `x+`: one or more `x`. -/
  | OpPlus (sub : Regexp)
  /-- `xy`: `x` followed by `y`. -/
  | OpConcat (x y : Regexp)

/-- The remainders after one or more rounds of `step`. A round that consumed nothing is
not repeated, so at most `len(rest)` rounds follow one another. -/
def plusIter (step : List Rune → List (List Rune)) : Nat → List Rune → List (List Rune)
  | 0, _ => []
  | fuel + 1, rest =>
    (step rest).flatMap fun rest1 =>
      rest1 :: (if rest1.length < rest.length then plusIter step fuel rest1 else [])

/-- All ways the expression matches at a position of a text of `n` runes: the position is
given by the runes `rest` not yet read, and every result is what is left after a match. -/
def Regexp.ends : Regexp → Nat → List Rune → List (List Rune)
  | .OpBeginText, n, rest => if rest.length = n then [rest] else []
  | .OpEndText, _, rest => if rest = [] then [rest] else []
  | .OpCharClass tables, _, rest =>
    match rest with
    | [] => []
    | c :: rest1 => if tables.any (fun t => Is t c) then [rest1] else []
  | .OpPlus sub, n, rest => plusIter (fun t => sub.ends n t) (rest.length + 1) rest
  | .OpConcat x y, n, rest => (x.ends n rest).flatMap fun rest1 => y.ends n rest1

/-- An unanchored search over the runes of the text: the expression matches at some
position. -/
def Regexp.MatchRunes (re : Regexp) (text : List Rune) : Bool :=
  text.tails.any fun rest => !(re.ends text.length rest).isEmpty

/-- The method `(*Regexp).MatchString`: the text is read rune by rune with
`utf8.DecodeRuneInString`, as `[]rune(s)` does. -/
def Regexp.MatchString (re : Regexp) (s : GoString) : Bool := re.MatchRunes (runes s)

/-- The compiled pattern `^[\p{Hiragana}\p{Katakana}]+$`. -/
def kanaPattern : Regexp :=
  .OpConcat .OpBeginText (.OpConcat (.OpPlus (.OpCharClass [Hiragana, Katakana])) .OpEndText)

/-! ## The program -/

/-- The struct `ValidationResult`. -/
structure ValidationResult where
  IsValid : Bool
  Message : GoString
deriving DecidableEq, Repr

/-- The struct `ReplacementResult`. -/
structure ReplacementResult where
  DisplayText : GoString
  Error : GoString
deriving DecidableEq, Repr

/-- The function `validateKana`. -/
def validateKana (input : GoString) : ValidationResult :=
  if input = str "" then
    { IsValid := true, Message := str "" }
  else if (runes input).length > 10 then
    { IsValid := false, Message := str "10文字以内で入力してください" }
  else if !kanaPattern.MatchString input then
    { IsValid := false, Message := str "ひらがなまたはカタカナのみ入力できます" }
  else
    { IsValid := true, Message := str "" }

/-- The function `validateShortText`. -/
def validateShortText (input : GoString) : ValidationResult :=
  if (runes input).length > 30 then
    { IsValid := false, Message := str "30文字以内で入力してください" }
  else
    { IsValid := true, Message := str "" }

/-! ## The package `strings` -/

/-- The function `strings.HasPrefix`. -/
def HasPrefix (s pre : GoString) : Bool := pre.isPrefixOf s

/-- The function `strings.Index`: the index of the first instance of `substr` in `s`, or
`-1` if `substr` is not present in `s`. -/
def Index : GoString → GoString → Int
  | [], substr => if substr = [] then 0 else -1
  | c :: s, substr =>
    if HasPrefix (c :: s) substr then 0
    else if Index s substr = -1 then -1
    else Index s substr + 1

/-- The slice expression `s[lo:hi]`; Go requires `0 ≤ lo ≤ hi ≤ len(s)`. -/
def slice (s : GoString) (lo hi : Int) : GoString := (s.drop lo.toNat).take (hi - lo).toNat

/-- The slice expression `s[lo:]`; Go requires `0 ≤ lo ≤ len(s)`. -/
def sliceFrom (s : GoString) (lo : Int) : GoString := s.drop lo.toNat

/-- The loop of `strings.Count` for a separator of two or more bytes; the first argument
bounds the number of iterations, and every iteration shortens `s`. -/
def countLoop (substr : GoString) : Nat → GoString → Int → Int
  | 0, _, n => n
  | fuel + 1, s, n =>
    if Index s substr = -1 then n
    else countLoop substr fuel (sliceFrom s (Index s substr + substr.length)) (n + 1)

/-- The function `strings.Count`: the number of non-overlapping instances of `substr` in
`s`; an empty `substr` gives one more than the number of runes, and a single byte is
counted with `bytealg.CountString`. -/
def Count (s substr : GoString) : Int :=
  match substr with
  | [] => RuneCountInString s + 1
  | [c] => s.count c
  | _ => countLoop substr (s.length + 1) s 0

/-- The loop `for i := 0; i < n; i++` of `strings.Replace` followed by the final
`b.WriteString(s[start:])`. The first argument is `n - i`, the number of iterations that
are left; `b` is the contents of the builder. -/
def replaceLoop (s old new : GoString) : Nat → Int → Int → GoString → GoString
  | 0, _, start, b => b ++ sliceFrom s start
  | k + 1, i, start, b =>
    let j : Int :=
      if old.length = 0 then
        (if i > 0 then start + (DecodeRuneInString (sliceFrom s start)).2 else start)
      else start + Index (sliceFrom s start) old
    replaceLoop s old new k (i + 1) (j + old.length) (b ++ slice s start j ++ new)

/-- The function `strings.Replace`. -/
def Replace (s old new : GoString) (n : Int) : GoString :=
  if old = new ∨ n = 0 then s
  else
    let m := Count s old
    if m = 0 then s
    else
      let n := if n < 0 ∨ m < n then m else n
      replaceLoop s old new n.toNat 0 0 []

/-- The function `strings.ReplaceAll`. -/
def ReplaceAll (s old new : GoString) : GoString := Replace s old new (-1)

/-- The function `performReplacement`. -/
def performReplacement (searchText replaceText originalText : GoString) : ReplacementResult :=
  if searchText = str "" ∨ originalText = str "" then
    { DisplayText := originalText, Error := str "" }
  else
    let kanaValidation := validateKana searchText
    if !kanaValidation.IsValid then
      { DisplayText := originalText, Error := kanaValidation.Message }
    else
      let shortTextValidation := validateShortText replaceText
      if !shortTextValidation.IsValid then
        { DisplayText := originalText, Error := shortTextValidation.Message }
      else
        let result := ReplaceAll originalText searchText replaceText
        { DisplayText := result, Error := str "" }

/-! ## The host wrappers -/

/-- A `js.Value` as the wrappers see it: its JavaScript type, and for a string, number or
boolean the Go string that `jsString` returns for it. -/
inductive Value where
  | TypeUndefined
  | TypeNull
  | TypeBoolean (text : GoString)
  | TypeNumber (text : GoString)
  | TypeString (text : GoString)
  | TypeSymbol
  | TypeObject
  | TypeFunction

/-- The method `js.Value.String`, which does not fail on a value that is not a string. -/
def Value.String : Value → GoString
  | .TypeString text => text
  | .TypeUndefined => str "<undefined>"
  | .TypeNull => str "<null>"
  | .TypeBoolean text => str "<boolean: " ++ text ++ str ">"
  | .TypeNumber text => str "<number: " ++ text ++ str ">"
  | .TypeSymbol => str "<symbol>"
  | .TypeObject => str "<object>"
  | .TypeFunction => str "<function>"

/-- The map with the keys `"isValid"` and `"message"` that `validateKanaWrapper` returns. -/
structure ValidateMap where
  isValid : Bool
  message : GoString
deriving DecidableEq, Repr

/-- The map with the keys `"displayText"` and `"error"` that `replaceTextWrapper` returns. -/
structure ReplaceMap where
  displayText : GoString
  error : GoString
deriving DecidableEq, Repr

/-- The function `validateKanaWrapper`; the receiver `this` is not used. -/
def validateKanaWrapper (args : List Value) : ValidateMap :=
  match args with
  | [arg0] =>
    let input := arg0.String
    let result := validateKana input
    { isValid := result.IsValid, message := result.Message }
  | _ => { isValid := false, message := str "Invalid arguments" }

/-- The function `replaceTextWrapper`; the receiver `this` is not used. -/
def replaceTextWrapper (args : List Value) : ReplaceMap :=
  match args with
  | [arg0, arg1, arg2] =>
    let searchText := arg0.String
    let replaceText := arg1.String
    let originalText := arg2.String
    let result := performReplacement searchText replaceText originalText
    { displayText := result.DisplayText, error := result.Error }
  | _ => { displayText := str "", error := str "Invalid arguments" }

/-! ## Vocabulary of the statements -/

/-- The string `x₀ ++ sep ++ x₁ ++ sep ++ ... ++ sep ++ last` made of the pieces
`[x₀, x₁, ...]`, of one separator behind each piece, and of a last piece. -/
def joinWith (sep : GoString) : List GoString → GoString → GoString
  | [], last => last
  | x :: xs, last => x ++ sep ++ joinWith sep xs last

/-! ## Decoding -/

theorem str_empty : str "" = [] := rfl

theorem runes_nil : runes [] = [] := rfl

theorem runes_ne_nil {s : GoString} (h : s ≠ []) : runes s ≠ [] := by
  cases s with
  | nil => exact absurd rfl h
  | cons b s => simp [runes, runesFuel]

/-- A non-empty string is decoded to a rune of one to four bytes. -/
theorem DecodeRuneInString_width (b : Byte) (s : GoString) :
    1 ≤ (DecodeRuneInString (b :: s)).2 ∧ (DecodeRuneInString (b :: s)).2 ≤ 4 := by
  unfold DecodeRuneInString
  simp only [List.length_cons]
  split_ifs <;> omega

/-- More iterations than the string has bytes change nothing. -/
theorem runesFuel_of_le : ∀ (fuel : Nat) (s : GoString), s.length ≤ fuel →
    runesFuel fuel s = runesFuel s.length s := by
  intro fuel
  induction fuel using Nat.strong_induction_on with
  | _ fuel ih =>
    intro s hs
    cases s with
    | nil => cases fuel <;> rfl
    | cons b s =>
      cases fuel with
      | zero => simp at hs
      | succ fuel =>
        have hw := (DecodeRuneInString_width b s).1
        have hlen : ((b :: s).drop (DecodeRuneInString (b :: s)).2).length ≤ s.length := by
          simp only [List.length_drop, List.length_cons]; omega
        simp only [List.length_cons, runesFuel]
        rw [ih fuel (Nat.lt_succ_self _) _ (by simp only [List.length_cons] at hs; omega),
          ih s.length (by simp only [List.length_cons] at hs; omega) _ hlen]

/-- The conversion `[]rune(s)` decodes the first rune and goes on behind it. -/
theorem runes_cons (b : Byte) (s : GoString) :
    runes (b :: s) = (DecodeRuneInString (b :: s)).1 ::
      runes ((b :: s).drop (DecodeRuneInString (b :: s)).2) := by
  have hw := (DecodeRuneInString_width b s).1
  have hlen : ((b :: s).drop (DecodeRuneInString (b :: s)).2).length ≤ s.length := by
    simp only [List.length_drop, List.length_cons]; omega
  simp only [runes, List.length_cons, runesFuel]
  rw [runesFuel_of_le s.length _ hlen]

/-! ## The pattern -/

/-- A loop over a step that reads one rune satisfying `p` reaches the end of the text
exactly from a non-empty rest made of such runes. -/
theorem nil_mem_plusIter (p : Rune → Bool) (step : List Rune → List (List Rune))
    (h0 : step [] = []) (h1 : ∀ c rest, step (c :: rest) = if p c = true then [rest] else []) :
    ∀ (fuel : Nat) (rest : List Rune),
      [] ∈ plusIter step fuel rest ↔
        rest ≠ [] ∧ (∀ c ∈ rest, p c = true) ∧ rest.length ≤ fuel := by
  intro fuel
  induction fuel with
  | zero =>
    intro rest
    cases rest <;> simp [plusIter]
  | succ fuel ih =>
    intro rest
    cases rest with
    | nil => simp [plusIter, h0]
    | cons c rest =>
      by_cases hc : p c = true
      · have hstep : plusIter step (fuel + 1) (c :: rest) = rest :: plusIter step fuel rest := by
          simp [plusIter, h1, hc]
        rw [hstep, List.mem_cons, ih rest]
        constructor
        · rintro (h | ⟨h1, h2, h3⟩)
          · subst h; simp [hc]
          · refine ⟨by simp, ?_, by simp only [List.length_cons]; omega⟩
            intro d hd
            rcases List.mem_cons.1 hd with rfl | hd
            · exact hc
            · exact h2 d hd
        · rintro ⟨-, h2, h3⟩
          by_cases hr : rest = []
          · exact Or.inl hr.symm
          · exact Or.inr ⟨hr, fun d hd => h2 d (List.mem_cons_of_mem _ hd),
              by simp only [List.length_cons] at h3; omega⟩
      · have hstep : plusIter step (fuel + 1) (c :: rest) = [] := by
          simp [plusIter, h1, hc]
        rw [hstep]
        constructor
        · intro h; cases h
        · rintro ⟨-, h2, -⟩
          exact absurd (h2 c (List.mem_cons_self _ _)) hc

/-- The loop of `[...]+` reaches the end of the text exactly from a non-empty rest made of
runes of the class. -/
theorem nil_mem_plusIter_charClass (tables : List RangeTable) (n : Nat)
    (fuel : Nat) (rest : List Rune) :
    [] ∈ plusIter (fun t => (Regexp.OpCharClass tables).ends n t) fuel rest ↔
      rest ≠ [] ∧ (∀ c ∈ rest, tables.any (fun t => Is t c) = true) ∧ rest.length ≤ fuel :=
  nil_mem_plusIter (fun c => tables.any (fun t => Is t c)) _ (by simp [Regexp.ends])
    (by intro c rest; simp [Regexp.ends]) fuel rest

/-- The pattern matches at a position exactly when the position is the beginning of the
text and the text is a non-empty run of kana. -/
theorem kanaPattern_ends (n : Nat) (rest : List Rune) :
    kanaPattern.ends n rest ≠ [] ↔
      rest.length = n ∧ rest ≠ [] ∧ ∀ c ∈ rest, [Hiragana, Katakana].any (fun t => Is t c) = true := by
  have key := nil_mem_plusIter_charClass [Hiragana, Katakana] n (rest.length + 1) rest
  rw [← List.length_pos, List.length_pos_iff_exists_mem]
  simp only [kanaPattern, Regexp.ends, List.mem_flatMap]
  constructor
  · rintro ⟨a, r1, h1, r2, h2, h3⟩
    split_ifs at h1 with hn
    · simp only [List.mem_singleton] at h1
      subst h1
      by_cases hr2 : r2 = []
      · subst hr2
        have := key.1 h2
        exact ⟨hn, this.1, this.2.1⟩
      · simp [hr2] at h3
    · simp at h1
  · rintro ⟨hn, h1, h2⟩
    refine ⟨[], rest, by simp [hn], [], key.2 ⟨h1, h2, by omega⟩, by simp⟩

/-- The search `MatchString` with the program's pattern is a test of the whole text: it
succeeds exactly on a non-empty text all of whose runes are Hiragana or Katakana. -/
theorem kanaPattern_MatchString (s : GoString) :
    kanaPattern.MatchString s = true ↔
      runes s ≠ [] ∧ ∀ c ∈ runes s, Is Hiragana c = true ∨ Is Katakana c = true := by
  have hany : ∀ c, [Hiragana, Katakana].any (fun t => Is t c) = true ↔
      (Is Hiragana c = true ∨ Is Katakana c = true) := by
    intro c; simp
  simp only [Regexp.MatchString, Regexp.MatchRunes, List.any_eq_true, List.mem_tails,
    Bool.not_eq_true', List.isEmpty_eq_false, ne_eq]
  constructor
  · rintro ⟨rest, hsuf, hne⟩
    have h := (kanaPattern_ends _ rest).1 hne
    have : rest = runes s := hsuf.eq_of_length h.1
    subst this
    exact ⟨h.2.1, fun c hc => (hany c).1 (h.2.2 c hc)⟩
  · rintro ⟨h1, h2⟩
    exact ⟨runes s, List.suffix_refl _,
      (kanaPattern_ends _ _).2 ⟨rfl, h1, fun c hc => (hany c).2 (h2 c hc)⟩⟩

/-! ## The validators -/

/-- The three branches of `validateKana` behind the test for the empty string. -/
theorem validateKana_of_ne_nil {s : GoString} (hs : s ≠ []) :
    validateKana s =
      if 10 < (runes s).length then
        { IsValid := false, Message := str "10文字以内で入力してください" }
      else if ∀ c ∈ runes s, Is Hiragana c = true ∨ Is Katakana c = true then
        { IsValid := true, Message := str "" }
      else
        { IsValid := false, Message := str "ひらがなまたはカタカナのみ入力できます" } := by
  have hm := kanaPattern_MatchString s
  have hr := runes_ne_nil hs
  unfold validateKana
  rw [if_neg (by simpa [str_empty] using hs)]
  by_cases hlen : 10 < (runes s).length
  · simp only [gt_iff_lt, hlen, if_true]
  · rw [if_neg hlen, if_neg hlen]
    by_cases hall : ∀ c ∈ runes s, Is Hiragana c = true ∨ Is Katakana c = true
    · rw [if_pos hall, if_neg (by simp [hm.2 ⟨hr, hall⟩])]
    · have hno : kanaPattern.MatchString s = false := by
        cases hb : kanaPattern.MatchString s with
        | false => rfl
        | true => exact absurd (hm.1 hb).2 hall
      rw [if_neg hall, if_pos (by simp [hno])]

theorem validateKana_nil : validateKana [] = { IsValid := true, Message := str "" } := by
  simp [validateKana, str_empty]

/-- The message of `validateKana` is empty exactly on success. -/
theorem validateKana_message (s : GoString) :
    (validateKana s).Message ≠ [] ↔ (validateKana s).IsValid = false := by
  by_cases hs : s = []
  · subst hs; rw [validateKana_nil]; simp [str_empty]
  · rw [validateKana_of_ne_nil hs]
    split_ifs
    · simp only [ne_eq, iff_true]; decide
    · simp [str_empty]
    · simp only [ne_eq, iff_true]; decide

/-- The message of `validateShortText` is empty exactly on success. -/
theorem validateShortText_message (s : GoString) :
    (validateShortText s).Message ≠ [] ↔ (validateShortText s).IsValid = false := by
  unfold validateShortText
  split_ifs
  · simp only [ne_eq, iff_true]; decide
  · simp [str_empty]

/-! ## Searching and replacing -/

theorem Index_of_prefix {s q : GoString} (h : q <+: s) : Index s q = 0 := by
  cases s with
  | nil =>
    have : q = [] := List.prefix_nil.1 h
    simp [Index, this]
  | cons c s =>
    have : HasPrefix (c :: s) q = true := by
      simpa [HasPrefix] using h
    simp [Index, this]

/-- A string that does not contain `q` has no index of `q`. -/
theorem Index_of_not_infix {q : GoString} (hq : q ≠ []) :
    ∀ {s : GoString}, ¬ q <:+: s → Index s q = -1 := by
  intro s
  induction s with
  | nil => intro _; simp [Index, hq]
  | cons c s ih =>
    intro h
    have hpre : HasPrefix (c :: s) q = false := by
      cases hb : HasPrefix (c :: s) q with
      | false => rfl
      | true =>
        have : q <+: c :: s := by simpa [HasPrefix] using hb
        exact absurd this.isInfix h
    have htail : Index s q = -1 :=
      ih (fun hin => h (hin.trans (List.suffix_cons c s).isInfix))
    simp [Index, hpre, htail]

theorem Index_cons (c : Byte) (s q : GoString) :
    Index (c :: s) q =
      if HasPrefix (c :: s) q = true then 0
      else if Index s q = -1 then -1
      else Index s q + 1 := by
  rw [Index]

/-- An index that is not `-1` is the position of an instance inside the string, so the
slices `s[start:j]` and `s[j+len(old):]` of `Replace` are within bounds. -/
theorem Index_bounds (q : GoString) :
    ∀ s : GoString, Index s q = -1 ∨ (0 ≤ Index s q ∧ Index s q + q.length ≤ s.length) := by
  intro s
  induction s with
  | nil =>
    by_cases hq : q = []
    · right; simp [Index, hq]
    · left; simp [Index, hq]
  | cons c s ih =>
    rw [Index_cons]
    by_cases hpre : HasPrefix (c :: s) q = true
    · right
      have hp : q <+: c :: s := by simpa [HasPrefix] using hpre
      rw [if_pos hpre]
      exact ⟨le_refl _, by have := hp.length_le; simp only [zero_add]; exact_mod_cast this⟩
    · rw [if_neg hpre]
      by_cases hneg : Index s q = -1
      · left; rw [if_pos hneg]
      · right
        rw [if_neg hneg]
        rcases ih with h | ⟨h1, h2⟩
        · exact absurd h hneg
        · simp only [List.length_cons]
          push_cast
          omega

/-- The index of `q` is at most the position of any of its occurrences, and it is not
negative when there is one. -/
theorem Index_le_of_occurrence (q : GoString) :
    ∀ (a b : GoString), 0 ≤ Index (a ++ q ++ b) q ∧ Index (a ++ q ++ b) q ≤ a.length := by
  intro a
  induction a with
  | nil =>
    intro b
    have : Index ([] ++ q ++ b) q = 0 := Index_of_prefix (by simp)
    rw [this]
    exact ⟨le_refl _, by simp⟩
  | cons c a ih =>
    intro b
    have h := ih b
    show 0 ≤ Index (c :: (a ++ q ++ b)) q ∧ Index (c :: (a ++ q ++ b)) q ≤ (c :: a).length
    rw [Index_cons]
    by_cases hpre : HasPrefix (c :: (a ++ q ++ b)) q = true
    · rw [if_pos hpre]
      exact ⟨le_refl _, by positivity⟩
    · have hne : Index (a ++ q ++ b) q ≠ -1 := by omega
      rw [if_neg hpre, if_neg hne]
      simp only [List.length_cons]
      push_cast
      omega

/-- The index of `q` in `x ++ q ++ rest` is `len(x)` when `q` occurs in `x ++ q` only at
the end. -/
theorem Index_of_leftmost {q : GoString} :
    ∀ {x : GoString}, (∀ a b, x ++ q = a ++ q ++ b → a = x) →
      ∀ rest : GoString, Index (x ++ q ++ rest) q = x.length := by
  intro x
  induction x with
  | nil => intro _ rest; exact Index_of_prefix (by simp)
  | cons c x ih =>
    intro h rest
    have hpre : ¬ HasPrefix (c :: (x ++ q ++ rest)) q = true := by
      intro hb
      have h1 : q <+: (c :: x ++ q) ++ rest := by simpa [HasPrefix] using hb
      have h2 : q <+: c :: x ++ q :=
        List.prefix_of_prefix_length_le h1 (List.prefix_append _ _)
          (by simp only [List.length_append, List.length_cons]; omega)
      obtain ⟨b, hb2⟩ := h2
      have := h [] b (by simpa using hb2.symm)
      exact absurd this (by simp)
    have htail : Index (x ++ q ++ rest) q = x.length :=
      ih (fun a b hab => by
        have := h (c :: a) b (by simp [hab])
        simpa using this) rest
    have hne : Index (x ++ q ++ rest) q ≠ -1 := by omega
    show Index (c :: (x ++ q ++ rest)) q = (c :: x).length
    rw [Index_cons, if_neg hpre, if_neg hne, htail]
    simp

/-- A decidable form of the condition on a piece: the index of `q` in `x ++ q` is
`len(x)`. -/
theorem leftmost_of_Index {x q : GoString} (h : Index (x ++ q) q = x.length) :
    ∀ a b, x ++ q = a ++ q ++ b → a = x := by
  intro a b hab
  have hle := (Index_le_of_occurrence q a b).2
  rw [← hab, h] at hle
  have hlen : (x ++ q).length = (a ++ q ++ b).length := by rw [hab]
  simp only [List.length_append] at hlen
  have hal : a.length = x.length := by
    have : x.length ≤ a.length := by exact_mod_cast hle
    omega
  rw [List.append_assoc] at hab
  exact (List.append_inj hab hal.symm).1.symm

theorem length_le_length_joinWith {q : GoString} (hq : q ≠ []) (xn : GoString) :
    ∀ xs : List GoString, xs.length ≤ (joinWith q xs xn).length := by
  intro xs
  induction xs with
  | nil => simp
  | cons x xs ih =>
    have : 0 < q.length := List.length_pos.2 hq
    simp only [joinWith, List.length_cons, List.length_append]
    omega

theorem sliceFrom_joinWith (x q rest : GoString) :
    sliceFrom (x ++ q ++ rest) ((x.length : Int) + (q.length : Int)) = rest := by
  have : ((x.length : Int) + (q.length : Int)).toNat = (x ++ q).length := by
    rw [List.length_append]; omega
  rw [sliceFrom, this, List.drop_left]

/-- The loop of `Count` finds one instance per separator of the decomposition. -/
theorem countLoop_joinWith {q : GoString} (hq : q ≠ []) {xn : GoString} (hlast : ¬ q <:+: xn) :
    ∀ (xs : List GoString), (∀ x ∈ xs, ∀ a b, x ++ q = a ++ q ++ b → a = x) →
      ∀ (fuel : Nat) (n : Int), xs.length < fuel →
        countLoop q fuel (joinWith q xs xn) n = n + xs.length := by
  intro xs
  induction xs with
  | nil =>
    intro _ fuel n hf
    cases fuel with
    | zero => omega
    | succ fuel => simp [joinWith, countLoop, Index_of_not_infix hq hlast]
  | cons x xs ih =>
    intro hp fuel n hf
    cases fuel with
    | zero => omega
    | succ fuel =>
      have hidx := Index_of_leftmost (hp x (List.mem_cons_self _ _)) (joinWith q xs xn)
      have hne : ¬ ((x.length : Int) = -1) := by omega
      rw [joinWith, countLoop, hidx, if_neg hne, sliceFrom_joinWith,
        ih (fun y hy => hp y (List.mem_cons_of_mem _ hy)) fuel (n + 1)
          (by simp only [List.length_cons] at hf; omega)]
      simp only [List.length_cons]
      push_cast
      omega

/-- A separator of one byte is in no piece of the decomposition. -/
theorem count_joinWith_singleton (c : Byte) {xn : GoString} (hlast : ¬ [c] <:+: xn) :
    ∀ (xs : List GoString), (∀ x ∈ xs, ∀ a b, x ++ [c] = a ++ [c] ++ b → a = x) →
      (joinWith [c] xs xn).count c = xs.length := by
  intro xs
  induction xs with
  | nil =>
    intro _
    have : c ∉ xn := by
      intro hc
      obtain ⟨s, u, rfl⟩ := List.append_of_mem hc
      exact hlast ⟨s, u, by simp⟩
    simpa [joinWith] using List.count_eq_zero_of_not_mem this
  | cons x xs ih =>
    intro hp
    have hx : c ∉ x := by
      intro hc
      obtain ⟨s, u, rfl⟩ := List.append_of_mem hc
      have := hp (s ++ c :: u) (List.mem_cons_self _ _) s (u ++ [c]) (by simp)
      have hl := congrArg List.length this
      simp at hl
    rw [joinWith, List.count_append, List.count_append, ih (fun y hy => hp y (List.mem_cons_of_mem _ hy)),
      List.count_eq_zero_of_not_mem hx]
    simp only [List.count_singleton_self, List.length_cons]
    omega

/-- The function `Count` finds one instance per separator of the decomposition. -/
theorem Count_joinWith {q : GoString} (hq : q ≠ []) {xn : GoString} (hlast : ¬ q <:+: xn)
    (xs : List GoString) (hp : ∀ x ∈ xs, ∀ a b, x ++ q = a ++ q ++ b → a = x) :
    Count (joinWith q xs xn) q = xs.length := by
  match q, hq, hlast, hp with
  | [], hq, _, _ => exact absurd rfl hq
  | [c], _, hlast, hp =>
    simp only [Count]
    exact_mod_cast count_joinWith_singleton c hlast xs hp
  | c :: d :: q, hq, hlast, hp =>
    simp only [Count]
    rw [countLoop_joinWith hq hlast xs hp _ _
      (Nat.lt_succ_of_le (length_le_length_joinWith hq xn xs))]
    simp

/-- The loop of `Replace` writes the pieces of the decomposition with `r` between them. -/
theorem replaceLoop_joinWith {q : GoString} (hq : q ≠ []) (r : GoString) (xn : GoString) :
    ∀ (xs : List GoString), (∀ x ∈ xs, ∀ a b, x ++ q = a ++ q ++ b → a = x) →
      ∀ (pre : GoString) (i : Int) (b : GoString),
        replaceLoop (pre ++ joinWith q xs xn) q r xs.length i pre.length b =
          b ++ joinWith r xs xn := by
  have hq0 : ¬ q.length = 0 := fun h => hq (List.length_eq_zero.1 h)
  intro xs
  induction xs with
  | nil =>
    intro _ pre i b
    simp [replaceLoop, joinWith, sliceFrom]
  | cons x xs ih =>
    intro hp pre i b
    have hdrop : sliceFrom (pre ++ joinWith q (x :: xs) xn) pre.length =
        x ++ q ++ joinWith q xs xn := by
      simp [sliceFrom, joinWith]
    have hidx := Index_of_leftmost (hp x (List.mem_cons_self _ _)) (joinWith q xs xn)
    have hslice : slice (pre ++ joinWith q (x :: xs) xn) pre.length
        ((pre.length : Int) + (x.length : Int)) = x := by
      have h1 : ((pre.length : Int) + (x.length : Int) - (pre.length : Int)).toNat = x.length := by
        omega
      simp [slice, h1, joinWith]
    have hnext : ((pre.length : Int) + (x.length : Int) + (q.length : Int)) =
        ((pre ++ x ++ q).length : Int) := by
      simp only [List.length_append]; push_cast; rfl
    have hs : pre ++ joinWith q (x :: xs) xn = (pre ++ x ++ q) ++ joinWith q xs xn := by
      simp [joinWith]
    simp only [List.length_cons, replaceLoop, if_neg hq0, hdrop, hidx, hslice, hnext]
    rw [hs, ih (fun y hy => hp y (List.mem_cons_of_mem _ hy))]
    simp [joinWith]

/-- Replacing all instances of a non-empty `q` in `x₀ ++ q ++ ... ++ q ++ xₙ` gives
`x₀ ++ r ++ ... ++ r ++ xₙ` when `q` is not in `xₙ` and is in each `xᵢ ++ q` only at the
end. -/
theorem ReplaceAll_joinWith {q : GoString} (hq : q ≠ []) (r : GoString) {xn : GoString}
    (hlast : ¬ q <:+: xn) (xs : List GoString)
    (hp : ∀ x ∈ xs, ∀ a b, x ++ q = a ++ q ++ b → a = x) :
    ReplaceAll (joinWith q xs xn) q r = joinWith r xs xn := by
  unfold ReplaceAll Replace
  by_cases hqr : q = r
  · subst hqr; simp
  · have hcount := Count_joinWith hq hlast xs hp
    cases xs with
    | nil =>
      have h0 : Count xn q = 0 := by simpa [joinWith] using hcount
      simp [hqr, h0, joinWith]
    | cons x xs =>
      have hm : ¬ ((((x :: xs).length : Nat) : Int) = 0) := by simp only [List.length_cons]; omega
      have hn : (if (-1 : Int) < 0 ∨ (((x :: xs).length : Nat) : Int) < -1
          then (((x :: xs).length : Nat) : Int) else -1).toNat = (x :: xs).length := by
        simp
      have := replaceLoop_joinWith hq r xn (x :: xs) hp [] 0 []
      simp only [List.nil_append, List.length_nil, Nat.cast_zero] at this
      simp only [hqr, hcount, hm, hn, false_or, if_false]
      simpa using this

theorem flatten_replicate_eq_joinWith (q : GoString) :
    ∀ n : Nat, (List.replicate n q).flatten = joinWith q (List.replicate n []) [] := by
  intro n
  induction n with
  | zero => rfl
  | succ n ih => simp [List.replicate_succ, joinWith, ih]

/-! ## The branches of `performReplacement` -/

theorem performReplacement_empty (q r s : GoString) (h : q = [] ∨ s = []) :
    performReplacement q r s = { DisplayText := s, Error := str "" } := by
  unfold performReplacement
  rw [if_pos (by simpa [str_empty] using h)]

theorem performReplacement_invalid (q r s : GoString) (hq : q ≠ []) (hs : s ≠ [])
    (hv : (validateKana q).IsValid = false) :
    performReplacement q r s = { DisplayText := s, Error := (validateKana q).Message } := by
  unfold performReplacement
  rw [if_neg (by simp [str_empty, hq, hs])]
  simp [hv]

theorem performReplacement_tooLong (q r s : GoString) (hq : q ≠ []) (hs : s ≠ [])
    (hv : (validateKana q).IsValid = true) (hr : 30 < (runes r).length) :
    performReplacement q r s =
      { DisplayText := s, Error := str "30文字以内で入力してください" } := by
  unfold performReplacement
  rw [if_neg (by simp [str_empty, hq, hs])]
  simp [hv, validateShortText, hr]

theorem performReplacement_valid (q r s : GoString) (hq : q ≠ []) (hs : s ≠ [])
    (hv : (validateKana q).IsValid = true) (hr : (runes r).length ≤ 30) :
    performReplacement q r s = { DisplayText := ReplaceAll s q r, Error := str "" } := by
  unfold performReplacement
  rw [if_neg (by simp [str_empty, hq, hs])]
  simp [hv, validateShortText, Nat.not_lt.2 hr]

/-- The error of `performReplacement` is empty exactly when no check fails. -/
theorem performReplacement_error (q r s : GoString) :
    (performReplacement q r s).Error = str "" ↔
      (q = [] ∨ s = [] ∨ ((validateKana q).IsValid = true ∧ (runes r).length ≤ 30)) := by
  by_cases hq : q = []
  · rw [performReplacement_empty q r s (Or.inl hq)]
    simp [hq]
  by_cases hs : s = []
  · rw [performReplacement_empty q r s (Or.inr hs)]
    simp [hs]
  cases hv : (validateKana q).IsValid with
  | false =>
    rw [performReplacement_invalid q r s hq hs hv]
    have := (validateKana_message q).2 hv
    simp [hq, hs, str_empty, this]
  | true =>
    by_cases hr : (runes r).length ≤ 30
    · rw [performReplacement_valid q r s hq hs hv hr]
      simp [hr]
    · rw [performReplacement_tooLong q r s hq hs hv (Nat.lt_of_not_le hr)]
      simp only [hq, hs, hr, false_or, and_false, iff_false]
      decide

/-- Whenever `performReplacement` reports an error it returns the source itself. -/
theorem performReplacement_text_of_error (q r s : GoString)
    (h : (performReplacement q r s).Error ≠ str "") :
    (performReplacement q r s).DisplayText = s := by
  have he := performReplacement_error q r s
  by_cases hq : q = []
  · exact absurd (he.2 (Or.inl hq)) h
  by_cases hs : s = []
  · exact absurd (he.2 (Or.inr (Or.inl hs))) h
  cases hv : (validateKana q).IsValid with
  | false => rw [performReplacement_invalid q r s hq hs hv]
  | true =>
    by_cases hr : (runes r).length ≤ 30
    · exact absurd (he.2 (Or.inr (Or.inr ⟨hv, hr⟩))) h
    · rw [performReplacement_tooLong q r s hq hs hv (Nat.lt_of_not_le hr)]

/-- Replacing a string by itself returns the source at once (`old == new`). -/
theorem ReplaceAll_self (s q : GoString) : ReplaceAll s q q = s := by
  simp [ReplaceAll, Replace]

/-- A string that `validateKana` accepts has at most 10 code points. -/
theorem length_runes_of_valid {q : GoString} (hv : (validateKana q).IsValid = true) :
    (runes q).length ≤ 10 := by
  by_cases hq : q = []
  · subst hq; simp [runes_nil]
  · by_contra hlen
    rw [validateKana_of_ne_nil hq, if_pos (Nat.lt_of_not_le hlen)] at hv
    exact absurd hv (by simp)

/-- Behind the test for the empty string `validateKana` accepts exactly the strings of at
most 10 code points that are all kana. -/
theorem validateKana_valid_iff {s : GoString} (hs : s ≠ []) :
    (validateKana s).IsValid = true ↔
      ((runes s).length ≤ 10 ∧ ∀ c ∈ runes s, Is Hiragana c = true ∨ Is Katakana c = true) := by
  rw [validateKana_of_ne_nil hs]
  by_cases hlen : 10 < (runes s).length
  · rw [if_pos hlen]
    simp [hlen]
  · rw [if_neg hlen]
    by_cases hall : ∀ c ∈ runes s, Is Hiragana c = true ∨ Is Katakana c = true
    · rw [if_pos hall]
      exact ⟨fun _ => ⟨Nat.not_lt.1 hlen, hall⟩, fun _ => rfl⟩
    · rw [if_neg hall]
      exact ⟨fun h => absurd h (by simp), fun h => absurd h.2 hall⟩

/-- The fixed record of `validateKanaWrapper` for a wrong number of arguments. -/
theorem validateKanaWrapper_of_length_ne (args : List Value) (h : args.length ≠ 1) :
    validateKanaWrapper args = { isValid := false, message := str "Invalid arguments" } := by
  match args, h with
  | [], _ => rfl
  | [_], h => exact absurd rfl h
  | _ :: _ :: _, _ => rfl

/-- The fixed record of `replaceTextWrapper` for a wrong number of arguments. -/
theorem replaceTextWrapper_of_length_ne (args : List Value) (h : args.length ≠ 3) :
    replaceTextWrapper args = { displayText := str "", error := str "Invalid arguments" } := by
  match args, h with
  | [], _ => rfl
  | [_], _ => rfl
  | [_, _], _ => rfl
  | [_, _, _], h => exact absurd rfl h
  | _ :: _ :: _ :: _ :: _, _ => rfl

/-! ## The prolonged sound mark -/

theorem str_prolonged : str "ー" = [0xE3, 0x83, 0xBC] := by decide

theorem acceptRanges_snd_le (i : Nat) : (acceptRanges i).2 ≤ 0xBF := by
  unfold acceptRanges
  split <;> simp

/-- The bytes `E3 83 BC` at the head of a string are decoded to U+30FC. -/
theorem DecodeRuneInString_prolonged (b : GoString) :
    DecodeRuneInString (0xE3 :: 0x83 :: 0xBC :: b) = (0x30FC, 3) := by
  have h0 : byteAt (0xE3 :: 0x83 :: 0xBC :: b) 0 = 227 := rfl
  have h1 : byteAt (0xE3 :: 0x83 :: 0xBC :: b) 1 = 131 := rfl
  have h2 : byteAt (0xE3 :: 0x83 :: 0xBC :: b) 2 = 188 := rfl
  have hf : first 227 = 3 := by decide
  have ha : acceptRanges (3 >>> 4) = (0x80, 0xBF) := by decide
  have h7 : 3 &&& 7 = 3 := by decide
  have hn : ¬ (b.length + 1 + 1 + 1 < 1) := by omega
  have hn3 : ¬ (b.length + 1 + 1 + 1 < 3) := by omega
  unfold DecodeRuneInString
  simp only [h0, h1, h2, hf, ha, h7, List.length_cons, hn, hn3, if_false]
  rw [if_neg (by decide), if_neg (by decide), if_neg (by decide), if_neg (by decide),
    if_pos (by decide)]
  rfl

/-- The bytes of a rune behind its first byte are continuation bytes or bytes of an
accept range, none of which is above `0xBF`. -/
theorem byteAt_le_of_lt_width (s : GoString) (i : Nat) (h1 : 1 ≤ i)
    (h2 : i < (DecodeRuneInString s).2) : byteAt s i ≤ 0xBF := by
  have hacc := acceptRanges_snd_le (first (byteAt s 0) >>> 4)
  unfold DecodeRuneInString at h2
  simp only at h2
  split_ifs at h2 with c1 c2 c3 c4 c5 c6 c7 c8 c9
  all_goals simp only at h2
  all_goals first
    | omega
    | (have hi : i = 1 := by omega
       subst hi; omega)
    | (have hi : i = 1 ∨ i = 2 := by omega
       rcases hi with rfl | rfl <;> omega)
    | (have hi : i = 1 ∨ i = 2 ∨ i = 3 := by omega
       rcases hi with rfl | rfl | rfl <;> omega)

theorem byteAt_append_prolonged (a b : GoString) :
    byteAt (a ++ 0xE3 :: 0x83 :: 0xBC :: b) a.length = 0xE3 := by
  induction a with
  | nil => rfl
  | cons c a ih => simpa [byteAt] using ih

/-- The byte `E3` is never read as a byte behind the first one of a rune, so the bytes
`E3 83 BC` are decoded to U+30FC wherever they are in a string. -/
theorem mem_runes_append_prolonged :
    ∀ (n : Nat) (a b : GoString), a.length ≤ n →
      0x30FC ∈ runes (a ++ 0xE3 :: 0x83 :: 0xBC :: b) := by
  intro n
  induction n using Nat.strong_induction_on with
  | _ n ih =>
    intro a b hn
    cases a with
    | nil =>
      rw [List.nil_append, runes_cons, DecodeRuneInString_prolonged]
      exact List.mem_cons_self _ _
    | cons c a =>
      have hw := (DecodeRuneInString_width c (a ++ 0xE3 :: 0x83 :: 0xBC :: b)).1
      have hle : (DecodeRuneInString (c :: (a ++ 0xE3 :: 0x83 :: 0xBC :: b))).2 ≤
          (c :: a).length := by
        by_contra hgt
        have hb := byteAt_le_of_lt_width (c :: (a ++ 0xE3 :: 0x83 :: 0xBC :: b))
          (c :: a).length (by simp) (Nat.lt_of_not_le hgt)
        have := byteAt_append_prolonged (c :: a) b
        rw [List.cons_append] at this
        rw [this] at hb
        exact absurd hb (by decide)
      have hdrop : (c :: (a ++ 0xE3 :: 0x83 :: 0xBC :: b)).drop
          (DecodeRuneInString (c :: (a ++ 0xE3 :: 0x83 :: 0xBC :: b))).2 =
          (c :: a).drop (DecodeRuneInString (c :: (a ++ 0xE3 :: 0x83 :: 0xBC :: b))).2 ++
            0xE3 :: 0x83 :: 0xBC :: b := by
        exact List.drop_append_of_le_length hle
      rw [List.cons_append, runes_cons, hdrop]
      refine List.mem_cons_of_mem _ (ih ((c :: a).drop _).length ?_ _ b (le_refl _))
      simp only [List.length_drop, List.length_cons] at hn ⊢
      omega

/-- A string that contains the bytes of `ー` has the code point U+30FC. -/
theorem mem_runes_of_infix_prolonged {s : GoString} (h : str "ー" <:+: s) :
    0x30FC ∈ runes s := by
  obtain ⟨a, b, rfl⟩ := h
  rw [str_prolonged, List.append_assoc]
  exact mem_runes_append_prolonged a.length a b (le_refl _)

/-! ## The claims -/

/-- C1: a string of at most 10 code points, all of them in the Hiragana or the Katakana
script (in any mixture, the empty string included), is accepted by `validateKana`: the
result is `IsValid = true` with the empty message. -/
theorem validateKana_accepts_kana (s : GoString) (hlen : (runes s).length ≤ 10)
    (hkana : ∀ c ∈ runes s, Is Hiragana c = true ∨ Is Katakana c = true) :
    validateKana s = { IsValid := true, Message := str "" } := by
  by_cases hs : s = []
  · subst hs; exact validateKana_nil
  · rw [validateKana_of_ne_nil hs, if_neg (Nat.not_lt.2 hlen), if_pos hkana]

theorem validateKana_accepts_kana_witness :
    validateKana (str "ねコあア") = { IsValid := true, Message := str "" } :=
  validateKana_accepts_kana (str "ねコあア") (by decide) (by decide)

/-- C2: a string of more than 10 code points, whatever its characters, is rejected by
`validateKana` with the length message: the length check comes before the script check. -/
theorem validateKana_rejects_long (s : GoString) (hlen : 10 < (runes s).length) :
    validateKana s = { IsValid := false, Message := str "10文字以内で入力してください" } := by
  have hs : s ≠ [] := by
    rintro rfl
    simp [runes_nil] at hlen
  rw [validateKana_of_ne_nil hs, if_pos hlen]

theorem validateKana_rejects_long_witness :
    validateKana (str "あいうえおかきくけこさ") =
      { IsValid := false, Message := str "10文字以内で入力してください" } :=
  validateKana_rejects_long (str "あいうえおかきくけこさ") (by decide)

/-- C3: a non-empty string with a code point, at any position, that is neither in the
Hiragana nor in the Katakana script is rejected by `validateKana`, and with the
wrong-script message when it has at most 10 code points. -/
theorem validateKana_rejects_non_kana (s : GoString) (hs : s ≠ []) (c : Rune)
    (hc : c ∈ runes s) (hnot : ¬ (Is Hiragana c = true ∨ Is Katakana c = true)) :
    (validateKana s).IsValid = false ∧
      ((runes s).length ≤ 10 →
        (validateKana s).Message = str "ひらがなまたはカタカナのみ入力できます") := by
  have hall : ¬ ∀ d ∈ runes s, Is Hiragana d = true ∨ Is Katakana d = true :=
    fun h => hnot (h c hc)
  rw [validateKana_of_ne_nil hs]
  by_cases hlen : 10 < (runes s).length
  · rw [if_pos hlen]
    exact ⟨rfl, fun h => absurd hlen (Nat.not_lt.2 h)⟩
  · rw [if_neg hlen, if_neg hall]
    exact ⟨rfl, fun _ => rfl⟩

theorem validateKana_rejects_non_kana_witness :
    (validateKana (str "あ\n")).IsValid = false ∧
      ((runes (str "あ\n")).length ≤ 10 →
        (validateKana (str "あ\n")).Message = str "ひらがなまたはカタカナのみ入力できます") :=
  validateKana_rejects_non_kana (str "あ\n") (by decide) 10 (by decide) (by decide)

/-- C4: with an empty search term or an empty source `performReplacement` returns the
source unchanged and no error, whatever the search term and the replacement are. -/
theorem performReplacement_noop (q r s : GoString) (h : q = str "" ∨ s = str "") :
    performReplacement q r s = { DisplayText := s, Error := str "" } :=
  performReplacement_empty q r s h

theorem performReplacement_noop_witness :
    performReplacement (str "abc あいうえおかきくけこ") (List.replicate 31 120) (str "") =
      { DisplayText := str "", Error := str "" } :=
  performReplacement_noop (str "abc あいうえおかきくけこ") (List.replicate 31 120) (str "")
    (Or.inr rfl)

/-- C5: with a non-empty search term that `validateKana` rejects and a non-empty source,
`performReplacement` returns the source itself and the message of `validateKana`,
whatever the replacement is. -/
theorem performReplacement_invalid_search (q r s : GoString) (hq : q ≠ str "")
    (hs : s ≠ str "") (hv : (validateKana q).IsValid = false) :
    performReplacement q r s = { DisplayText := s, Error := (validateKana q).Message } :=
  performReplacement_invalid q r s hq hs hv

theorem performReplacement_invalid_search_witness :
    performReplacement (str "ね子") (List.replicate 31 120) (str "ね子がいる") =
      { DisplayText := str "ね子がいる", Error := str "ひらがなまたはカタカナのみ入力できます" } :=
  performReplacement_invalid_search (str "ね子") (List.replicate 31 120) (str "ね子がいる")
    (by decide) (by decide) (by decide)

/-- C6: with a non-empty search term that `validateKana` accepts, a non-empty source and
a replacement of more than 30 code points, `performReplacement` returns the source
unchanged and the error `30文字以内で入力してください`. -/
theorem performReplacement_long_replacement (q r s : GoString) (hq : q ≠ str "")
    (hv : (validateKana q).IsValid = true) (hs : s ≠ str "")
    (hr : 30 < (runes r).length) :
    performReplacement q r s =
      { DisplayText := s, Error := str "30文字以内で入力してください" } :=
  performReplacement_tooLong q r s hq hs hv hr

theorem performReplacement_long_replacement_witness :
    performReplacement (str "あ") (List.replicate 31 120) (str "あいう") =
      { DisplayText := str "あいう", Error := str "30文字以内で入力してください" } :=
  performReplacement_long_replacement (str "あ") (List.replicate 31 120) (str "あいう")
    (by decide) (by decide) (by decide) (by decide)

/-- C7: the error of `performReplacement` is empty exactly when the search term is empty,
or the source is empty, or the search term passes `validateKana` and the replacement has
at most 30 code points; two replacements with the same number of code points are
reported alike, and a replacement of 30 characters of three bytes each is accepted. -/
theorem performReplacement_error_iff :
    (∀ q r s : GoString,
      (performReplacement q r s).Error = str "" ↔
        (q = str "" ∨ s = str "" ∨
          ((validateKana q).IsValid = true ∧ (runes r).length ≤ 30))) ∧
    (∀ q r r1 s : GoString, (runes r1).length = (runes r).length →
      ((performReplacement q r1 s).Error = str "" ↔
        (performReplacement q r s).Error = str "")) ∧
    (runes (List.replicate 30 (str "あ")).flatten).length = 30 ∧
    (List.replicate 30 (str "あ")).flatten.length = 90 ∧
    (performReplacement (str "あ") (List.replicate 30 (str "あ")).flatten (str "あいう")).Error
      = str "" := by
  refine ⟨performReplacement_error, ?_, by decide, by decide, by decide⟩
  intro q r r1 s h
  rw [performReplacement_error, performReplacement_error, h]

/-- C8: for a non-empty search term `q` that `validateKana` accepts, a replacement `r` of
at most 30 code points and a non-empty source `x₀ ++ q ++ x₁ ++ q ++ ... ++ q ++ xₙ` in
which `xₙ` does not contain `q` and `q` occurs in each `xᵢ ++ q` only at the end,
`performReplacement` returns `x₀ ++ r ++ x₁ ++ r ++ ... ++ r ++ xₙ` and no error. -/
theorem performReplacement_replaces_all (q r : GoString) (xs : List GoString)
    (xn : GoString) (hq : q ≠ str "") (hv : (validateKana q).IsValid = true)
    (hr : (runes r).length ≤ 30) (hs : joinWith q xs xn ≠ str "")
    (hlast : ¬ q <:+: xn)
    (hpieces : ∀ x ∈ xs, ∀ a b : GoString, x ++ q = a ++ q ++ b → a = x) :
    performReplacement q r (joinWith q xs xn) =
      { DisplayText := joinWith r xs xn, Error := str "" } := by
  rw [performReplacement_valid q r _ hq hs hv hr, ReplaceAll_joinWith hq r hlast xs hpieces]

theorem performReplacement_replaces_all_witness :
    performReplacement (str "ねこ") (str "いぬ") (str "ねこがねこを見る") =
      { DisplayText := str "いぬがいぬを見る", Error := str "" } :=
  performReplacement_replaces_all (str "ねこ") (str "いぬ") [str "", str "が"] (str "を見る")
    (by decide) (by decide) (by decide) (by decide) (by decide)
    (fun x hx => leftmost_of_Index
      ((by decide : ∀ x ∈ [str "", str "が"],
        Index (x ++ str "ねこ") (str "ねこ") = x.length) x hx))

/-- C9: for a non-empty search term `q` that `validateKana` accepts, a replacement `r` of
at most 30 code points and `n ≥ 1`, `performReplacement` turns `q` repeated `n` times
into `r` repeated `n` times, with no error: the matches do not overlap and the text
that was put in is not searched. -/
theorem performReplacement_repeat (q r : GoString) (n : Nat) (hq : q ≠ str "")
    (hv : (validateKana q).IsValid = true) (hr : (runes r).length ≤ 30) (hn : 1 ≤ n) :
    performReplacement q r (List.replicate n q).flatten =
      { DisplayText := (List.replicate n r).flatten, Error := str "" } := by
  have hq0 : q ≠ [] := hq
  have hs : (List.replicate n q).flatten ≠ [] := by
    obtain ⟨m, rfl⟩ : ∃ m, n = m + 1 := ⟨n - 1, by omega⟩
    simp [List.replicate_succ, hq0]
  rw [performReplacement_valid q r _ hq hs hv hr, flatten_replicate_eq_joinWith q n,
    flatten_replicate_eq_joinWith r n]
  congr 1
  refine ReplaceAll_joinWith hq r (fun h => hq (List.infix_nil.1 h)) _ ?_
  intro x hx a b hab
  have hx0 : x = [] := (List.mem_replicate.1 hx).2
  subst hx0
  have hl := congrArg List.length hab
  simp only [List.nil_append, List.length_append] at hl
  exact List.length_eq_zero.1 (by omega)

theorem performReplacement_repeat_witness :
    performReplacement (str "ああ") (str "あ") (str "ああああ") =
        { DisplayText := str "ああ", Error := str "" } ∧
      performReplacement (str "あ") (str "ああ") (str "あ") =
        { DisplayText := str "ああ", Error := str "" } :=
  ⟨performReplacement_repeat (str "ああ") (str "あ") 2 (by decide) (by decide) (by decide)
      (by decide),
    performReplacement_repeat (str "あ") (str "ああ") 1 (by decide) (by decide) (by decide)
      (by decide)⟩

/-- C10: the message of a validation result is non-empty exactly when the result is
invalid, for `validateKana`, for `validateShortText` and for the record that
`validateKanaWrapper` returns on any list of arguments. -/
theorem validation_message_iff :
    (∀ s : GoString, (validateKana s).Message ≠ str "" ↔ (validateKana s).IsValid = false) ∧
    (∀ s : GoString,
      (validateShortText s).Message ≠ str "" ↔ (validateShortText s).IsValid = false) ∧
    (∀ args : List Value,
      (validateKanaWrapper args).message ≠ str "" ↔
        (validateKanaWrapper args).isValid = false) := by
  refine ⟨validateKana_message, validateShortText_message, ?_⟩
  intro args
  match args with
  | [] => simp only [validateKanaWrapper, ne_eq, iff_true]; decide
  | [arg0] => exact validateKana_message arg0.String
  | _ :: _ :: _ => simp only [validateKanaWrapper, ne_eq, iff_true]; decide

/-- C11 as stated fails: with an empty search term the error is empty although no
substitution was performed. The text is the source `あ`, not the replace-all result
`いあい` that `strings.ReplaceAll` gives for an empty search term, so the error is not
"non-empty exactly when no substitution was performed", neither with "performed" read as
"the result is the replace-all result" nor read as "the text differs from the source". -/
theorem substitution_invariant_counterexample :
    (performReplacement (str "") (str "い") (str "あ")).Error = str "" ∧
      (performReplacement (str "") (str "い") (str "あ")).DisplayText = str "あ" ∧
      ReplaceAll (str "あ") (str "") (str "い") = str "いあい" ∧
      ¬ ((performReplacement (str "") (str "い") (str "あ")).Error ≠ str "" ↔
        performReplacement (str "") (str "い") (str "あ") ≠
          { DisplayText := ReplaceAll (str "あ") (str "") (str "い"), Error := str "" }) ∧
      ¬ ((performReplacement (str "") (str "い") (str "あ")).Error ≠ str "" ↔
        (performReplacement (str "") (str "い") (str "あ")).DisplayText = str "あ") := by
  decide

/-- C11, amended: the error of `performReplacement` is non-empty exactly when the search
term and the source are both non-empty and the returned record is not the replace-all
result, that is, not `strings.ReplaceAll(s, q, r)` with the empty error; whenever the
error is non-empty the text is the source itself; and with an empty search term or an
empty source the record is the source with the empty error. -/
theorem performReplacement_error_invariant (q r s : GoString) :
    ((performReplacement q r s).Error ≠ str "" ↔
      (q ≠ str "" ∧ s ≠ str "" ∧
        performReplacement q r s ≠ { DisplayText := ReplaceAll s q r, Error := str "" })) ∧
    ((performReplacement q r s).Error ≠ str "" →
      (performReplacement q r s).DisplayText = s) ∧
    ((performReplacement q r s).Error = str "" → q ≠ str "" → s ≠ str "" →
      performReplacement q r s = { DisplayText := ReplaceAll s q r, Error := str "" }) ∧
    (q = str "" ∨ s = str "" →
      performReplacement q r s = { DisplayText := s, Error := str "" }) := by
  have he := performReplacement_error q r s
  have hdone : (performReplacement q r s).Error = str "" → q ≠ str "" → s ≠ str "" →
      performReplacement q r s = { DisplayText := ReplaceAll s q r, Error := str "" } := by
    intro herr hq hs
    rcases he.1 herr with h | h | ⟨hv, hr⟩
    · exact absurd h hq
    · exact absurd h hs
    · exact performReplacement_valid q r s hq hs hv hr
  refine ⟨⟨fun h => ⟨?_, ?_, ?_⟩, ?_⟩, performReplacement_text_of_error q r s, hdone,
    performReplacement_empty q r s⟩
  · exact fun hq => h (he.2 (Or.inl hq))
  · exact fun hs => h (he.2 (Or.inr (Or.inl hs)))
  · intro heq
    exact h (by rw [heq])
  · rintro ⟨hq, hs, hne⟩ herr
    exact hne (hdone herr hq hs)

theorem performReplacement_error_invariant_witness :
    ((performReplacement (str "ね子") (str "いぬ") (str "ね子がいる")).Error ≠ str "" ∧
        (performReplacement (str "ね子") (str "いぬ") (str "ね子がいる")).DisplayText =
          str "ね子がいる") ∧
      performReplacement (str "ねこ") (str "いぬ") (str "ねこがねこを見る") =
        { DisplayText := str "いぬがいぬを見る", Error := str "" } :=
  ⟨⟨by decide,
      (performReplacement_error_invariant (str "ね子") (str "いぬ") (str "ね子がいる")).2.1
        (by decide)⟩,
    ((performReplacement_error_invariant (str "ねこ") (str "いぬ")
      (str "ねこがねこを見る")).2.2.1 (by decide) (by decide) (by decide)).trans (by decide)⟩

/-- C12: on a list of arguments whose length is not 1 `validateKanaWrapper` returns the
fixed record with the flag `false` and the message `Invalid arguments`, whatever the
arguments are; on a list of one argument it returns the flag and the message of
`validateKana` on the string of the argument. -/
theorem validateKanaWrapper_guard :
    (∀ args : List Value, args.length ≠ 1 →
      validateKanaWrapper args = { isValid := false, message := str "Invalid arguments" }) ∧
    (∀ arg0 : Value,
      validateKanaWrapper [arg0] =
        { isValid := (validateKana arg0.String).IsValid,
          message := (validateKana arg0.String).Message }) ∧
    (∀ s : GoString,
      validateKanaWrapper [Value.TypeString s] =
        { isValid := (validateKana s).IsValid, message := (validateKana s).Message }) :=
  ⟨validateKanaWrapper_of_length_ne, fun _ => rfl, fun _ => rfl⟩

theorem validateKanaWrapper_guard_witness :
    validateKanaWrapper [] = { isValid := false, message := str "Invalid arguments" } ∧
      validateKanaWrapper [Value.TypeString (str "あ"), Value.TypeString (str "い")] =
        { isValid := false, message := str "Invalid arguments" } ∧
      validateKanaWrapper [Value.TypeString (str "ねこ")] =
        { isValid := true, message := str "" } :=
  ⟨validateKanaWrapper_guard.1 [] (by decide),
    validateKanaWrapper_guard.1 _ (by decide),
    (validateKanaWrapper_guard.2.2 (str "ねこ")).trans (by decide)⟩

/-- C13: on a list of arguments whose length is not 3 `replaceTextWrapper` returns the
fixed record with the empty text and the error `Invalid arguments`, whatever the
arguments are; on a list of three arguments (search, replacement, source) it returns the
text and the error of `performReplacement` on the strings of the arguments. -/
theorem replaceTextWrapper_guard :
    (∀ args : List Value, args.length ≠ 3 →
      replaceTextWrapper args = { displayText := str "", error := str "Invalid arguments" }) ∧
    (∀ arg0 arg1 arg2 : Value,
      replaceTextWrapper [arg0, arg1, arg2] =
        { displayText :=
            (performReplacement arg0.String arg1.String arg2.String).DisplayText,
          error := (performReplacement arg0.String arg1.String arg2.String).Error }) ∧
    (∀ q r s : GoString,
      replaceTextWrapper [Value.TypeString q, Value.TypeString r, Value.TypeString s] =
        { displayText := (performReplacement q r s).DisplayText,
          error := (performReplacement q r s).Error }) :=
  ⟨replaceTextWrapper_of_length_ne, fun _ _ _ => rfl, fun _ _ _ => rfl⟩

theorem replaceTextWrapper_guard_witness :
    replaceTextWrapper [Value.TypeString (str "a"), Value.TypeString (str "b")] =
        { displayText := str "", error := str "Invalid arguments" } ∧
      replaceTextWrapper [Value.TypeString (str "ねこ"), Value.TypeString (str "いぬ"),
          Value.TypeString (str "ねこがねこを見る")] =
        { displayText := str "いぬがいぬを見る", error := str "" } :=
  ⟨replaceTextWrapper_guard.1 _ (by decide),
    (replaceTextWrapper_guard.2.2 (str "ねこ") (str "いぬ") (str "ねこがねこを見る")).trans
      (by decide)⟩

/-- C14 as stated fails: `あア` has two code points, one in the Hiragana script and one in
the Katakana script, and `validateKana` accepts it with the empty message. -/
theorem validateKana_mixed_counterexample :
    (runes (str "あア")).length ≤ 10 ∧
      (∃ c ∈ runes (str "あア"), Is Hiragana c = true) ∧
      (∃ c ∈ runes (str "あア"), Is Katakana c = true) ∧
      validateKana (str "あア") = { IsValid := true, Message := str "" } ∧
      validateKana (str "あア") ≠
        { IsValid := false, Message := str "ひらがなまたはカタカナのみ入力できます" } := by
  decide

/-- C14, amended: a string of at most 10 code points with a Hiragana and a Katakana
character is rejected with the wrong-script message exactly when it also has a code point
that is in neither script; when all its code points are in one of the two scripts it is
accepted with the empty message. -/
theorem validateKana_mixed (s : GoString) (hlen : (runes s).length ≤ 10)
    (hh : ∃ c ∈ runes s, Is Hiragana c = true) (hk : ∃ c ∈ runes s, Is Katakana c = true) :
    (validateKana s = { IsValid := false, Message := str "ひらがなまたはカタカナのみ入力できます" } ↔
      ∃ c ∈ runes s, ¬ (Is Hiragana c = true ∨ Is Katakana c = true)) ∧
    ((∀ c ∈ runes s, Is Hiragana c = true ∨ Is Katakana c = true) →
      validateKana s = { IsValid := true, Message := str "" }) := by
  have hs : s ≠ [] := by
    rintro rfl
    obtain ⟨c, hc, -⟩ := hh
    simp [runes_nil] at hc
  rw [validateKana_of_ne_nil hs, if_neg (Nat.not_lt.2 hlen)]
  by_cases hall : ∀ c ∈ runes s, Is Hiragana c = true ∨ Is Katakana c = true
  · rw [if_pos hall]
    refine ⟨⟨fun h => absurd h (by simp), ?_⟩, fun _ => rfl⟩
    rintro ⟨c, hc, hn⟩
    exact absurd (hall c hc) hn
  · rw [if_neg hall]
    refine ⟨⟨fun _ => ?_, fun _ => rfl⟩, fun h => absurd h hall⟩
    by_contra hne
    exact hall fun c hc => by
      by_contra hn
      exact hne ⟨c, hc, hn⟩

theorem validateKana_mixed_witness :
    validateKana (str "あア") = { IsValid := true, Message := str "" } :=
  (validateKana_mixed (str "あア") (by decide) (by decide) (by decide)).2 (by decide)

/-- C15: for a non-empty search term that `validateKana` accepts, a replacement of at
most 30 code points and a non-empty source in which the search term does not occur as a
contiguous substring, `performReplacement` returns the source and no error. -/
theorem performReplacement_absent (q r s : GoString) (hq : q ≠ str "")
    (hv : (validateKana q).IsValid = true) (hr : (runes r).length ≤ 30) (hs : s ≠ str "")
    (hno : ¬ q <:+: s) :
    performReplacement q r s = { DisplayText := s, Error := str "" } := by
  have h := ReplaceAll_joinWith hq r hno [] (fun x hx => absurd hx (List.not_mem_nil x))
  simp only [joinWith] at h
  rw [performReplacement_valid q r s hq hs hv hr, h]

theorem performReplacement_absent_witness :
    performReplacement (str "ねこ") (str "いぬ") (str "ネコ") =
      { DisplayText := str "ネコ", Error := str "" } :=
  performReplacement_absent (str "ねこ") (str "いぬ") (str "ネコ") (by decide) (by decide)
    (by decide) (by decide) (by decide)

/-- C16: replacing a term by itself returns the source as text, for every term and every
source; a term that `validateKana` accepts has at most 10 code points, so it passes the
bound of 30 and the error is empty as well. -/
theorem performReplacement_self (q s : GoString) :
    (performReplacement q q s).DisplayText = s ∧
      ((validateKana q).IsValid = true →
        (runes q).length ≤ 10 ∧ (performReplacement q q s).Error = str "") := by
  have herr : (validateKana q).IsValid = true → (performReplacement q q s).Error = str "" :=
    fun hv => (performReplacement_error q q s).2
      (Or.inr (Or.inr ⟨hv, le_trans (length_runes_of_valid hv) (by decide)⟩))
  refine ⟨?_, fun hv => ⟨length_runes_of_valid hv, herr hv⟩⟩
  by_cases he : (performReplacement q q s).Error = str ""
  · by_cases hq : q = []
    · rw [performReplacement_empty q q s (Or.inl hq)]
    by_cases hs : s = []
    · rw [performReplacement_empty q q s (Or.inr hs)]
    rcases (performReplacement_error q q s).1 he with h | h | ⟨hv, hr⟩
    · exact absurd h hq
    · exact absurd h hs
    · rw [performReplacement_valid q q s hq hs hv hr, ReplaceAll_self]
  · exact performReplacement_text_of_error q q s he

/-- C17: U+30FC `ー` is in neither of the two script tables, so every string of at most
10 code points that contains it (as one of its code points, or as the bytes of its
encoding) is rejected by `validateKana` with the wrong-script message, and
`performReplacement` with such a search term and a non-empty source returns the source
unchanged with that message as the error. -/
theorem validateKana_rejects_prolonged (q : GoString) (hlen : (runes q).length ≤ 10)
    (hc : 0x30FC ∈ runes q ∨ str "ー" <:+: q) :
    (Is Hiragana 0x30FC = false ∧ Is Katakana 0x30FC = false) ∧
      validateKana q =
        { IsValid := false, Message := str "ひらがなまたはカタカナのみ入力できます" } ∧
      ∀ r s : GoString, s ≠ str "" →
        performReplacement q r s =
          { DisplayText := s, Error := str "ひらがなまたはカタカナのみ入力できます" } := by
  have hmem : 0x30FC ∈ runes q := hc.elim id mem_runes_of_infix_prolonged
  have hq : q ≠ [] := by
    rintro rfl
    simp [runes_nil] at hmem
  have hall : ¬ ∀ c ∈ runes q, Is Hiragana c = true ∨ Is Katakana c = true :=
    fun h => absurd (h _ hmem) (by decide)
  have hval : validateKana q =
      { IsValid := false, Message := str "ひらがなまたはカタカナのみ入力できます" } := by
    rw [validateKana_of_ne_nil hq, if_neg (Nat.not_lt.2 hlen), if_neg hall]
  refine ⟨by decide, hval, fun r s hs => ?_⟩
  rw [performReplacement_invalid q r s hq hs (by rw [hval]), hval]

theorem validateKana_rejects_prolonged_witness :
    validateKana (str "ラーメン") =
        { IsValid := false, Message := str "ひらがなまたはカタカナのみ入力できます" } ∧
      performReplacement (str "ラーメン") (str "うどん") (str "ラーメンを食べる") =
        { DisplayText := str "ラーメンを食べる",
          Error := str "ひらがなまたはカタカナのみ入力できます" } :=
  ⟨(validateKana_rejects_prolonged (str "ラーメン") (by decide) (Or.inl (by decide))).2.1,
    (validateKana_rejects_prolonged (str "ラーメン") (by decide) (Or.inr (by decide))).2.2
      (str "うどん") (str "ラーメンを食べる") (by decide)⟩

end KanaReplace
